import Mathlib

/-
Verification development for the masto-rss bot.

Shallow embedding of the dedup / publish / notification logic of
src/bot.py and src/main.py:

* `Entry` models a feedparser entry: `entry.get("title", d)` and
  `entry.get("link", d)` become `Option String` fields read with `getD`.
* The Python `set` of processed entry URLs becomes `Finset String`.
* The posting collaborator (`Mastodon.status_post` wrapped by
  `post_to_mastodon`) becomes a function `post : String → Bool`
  (True on success, False when the wrapper swallows an exception).
* `joinSep` models Python `sep.join(parts)`.
* State-file writes are recorded in the result values (`saved` fields)
  rather than performed, and each invocation of the posting collaborator
  is logged in an `invoked` trace (urls, in call order) with the
  successful ones additionally in `succeeded`.
-/

/-- A feedparser entry as consumed by the bot: only `title` and `link`
are read, each possibly absent. -/
structure Entry where
  title : Option String
  link : Option String
deriving DecidableEq

/-- Python `sep.join(parts)`. -/
def joinSep (sep : String) : List String → String
  | [] => ""
  | [x] => x
  | x :: xs => x ++ sep ++ joinSep sep xs

namespace Bot

/-- bot.py `format_status`: `f"\n{title}\n\n{link}"` with
`entry.get("title", "Untitled")` and `entry.get("link", "")`. -/
def format_status (e : Entry) : String :=
  "\n" ++ e.title.getD "Untitled" ++ "\n\n" ++ e.link.getD ""

/-- State threaded through one run of `process_feed`'s entry loop:
the running new-entry count, the shared processed-entries set, and the
instrumentation traces of posting-collaborator invocations. -/
structure FeedResult where
  count : Nat
  store : Finset String
  invoked : List String
  succeeded : List String
deriving DecidableEq

/-- The body of the `for entry in feed.entries` loop of bot.py
`process_feed` (lines 185-205): skip entries without a url, skip urls
already in `processed_entries`, otherwise post the formatted status;
on success add the url to the set and increment the count, on failure
change nothing (the url stays eligible). -/
def process_feed_step (post : String → Bool) (st : FeedResult) (e : Entry) :
    FeedResult :=
  let url := e.link.getD ""
  if url = "" then st
  else if url ∈ st.store then st
  else if post (format_status e) then
    ⟨st.count + 1, insert url st.store, st.invoked ++ [url], st.succeeded ++ [url]⟩
  else
    ⟨st.count, st.store, st.invoked ++ [url], st.succeeded⟩

/-- bot.py `process_feed`: fold the loop body over the feed's entries,
starting from the given shared `processed_entries` set with a
fresh per-feed count of 0. -/
def process_feed (post : String → Bool) (entries : List Entry)
    (processed : Finset String) : FeedResult :=
  entries.foldl (process_feed_step post) ⟨0, processed, [], []⟩

/-- bot.py `save_processed_entries`, as the list of lines written:
`"\n".join(sorted(processed_entries))`. -/
def saveLines (s : Finset String) : List String :=
  s.sort (· ≤ ·)

/-- bot.py `save_processed_entries`, as the file content written. -/
def save_processed_entries (s : Finset String) : String :=
  joinSep "\n" (saveLines s)

/-- The `for feed_url in self.feed_urls` loop of bot.py
`process_new_entries`: each feed is processed against the store left by
the previous feeds, and the per-feed counts are summed. -/
def pass_fold (post : String → Bool) (feeds : List (List Entry))
    (init : FeedResult) : FeedResult :=
  feeds.foldl (fun acc entries =>
    let fr := process_feed post entries acc.store
    ⟨acc.count + fr.count, fr.store, acc.invoked ++ fr.invoked,
      acc.succeeded ++ fr.succeeded⟩) init

/-- Result of one full pass of bot.py `process_new_entries`:
`saved = none` means the state file was not written during the pass;
`saved = some c` means it was written exactly once, with content `c`. -/
structure PassResult where
  total : Nat
  store : Finset String
  invoked : List String
  succeeded : List String
  saved : Option String
deriving DecidableEq

/-- bot.py `process_new_entries` (lines 207-228): load the store
(here: the `processed` argument), process every configured feed against
the shared in-memory set, and write the state file after the loop,
only when `total_new_entries > 0`. -/
def process_new_entries (post : String → Bool) (feeds : List (List Entry))
    (processed : Finset String) : PassResult :=
  let r := pass_fold post feeds ⟨0, processed, [], []⟩
  ⟨r.count, r.store, r.invoked, r.succeeded,
    if r.count > 0 then some (save_processed_entries r.store) else none⟩

/-- One tick of bot.py `check_notifications`, over the collaborator's
answers: `fetchLatest` is the (at most one) mention returned by
`notifications(types=['mention'], limit=1)` and `fetchSince w` the ids
returned by `notifications(types=['mention'], since_id=w)`.  Returns the
new watermark and the ids of the mentions processed (replied to) this
tick.  On the first tick (`last_notification_id is None`) the watermark
is seeded from the single most recent mention, or 0 when there is none,
and the function returns before any reply. -/
def check_notifications (fetchLatest : Option Int) (fetchSince : Int → List Int) :
    Option Int → Option Int × List Int
  | none =>
    (match fetchLatest with
      | some n => (some n, [])
      | none => (some 0, []))
  | some x =>
    let notes := fetchSince x
    (some (notes.foldl max x), notes)

/-- A sequence of notification-check ticks, each with its own
collaborator answers, folded over the watermark. -/
def tick_fold (ticks : List (Option Int × (Int → List Int)))
    (w : Option Int) : Option Int :=
  ticks.foldl (fun w t => (check_notifications t.1 t.2 w).1) w

/-- The invariant behind dedup of successful posts: relative to a baseline
store `s0`, the trace of successfully posted urls has no duplicates, every
successfully posted url is in the current store, and urls already in `s0`
are never successfully posted again. -/
def StepInv (s0 : Finset String) (r : FeedResult) : Prop :=
  s0 ⊆ r.store ∧ r.succeeded.Nodup ∧
    ∀ u ∈ r.succeeded, u ∈ r.store ∧ u ∉ s0

/-- The dedup invariant at the level of the whole pass: no url is
successfully posted twice, and every successfully posted url ends up in
the shared store. -/
def PassInv (r : FeedResult) : Prop :=
  r.succeeded.Nodup ∧ ∀ u ∈ r.succeeded, u ∈ r.store

end Bot

namespace Main

/-- main.py `format_hashtags`: empty configuration collapses to the
empty string; otherwise split on spaces, drop empty fragments, strip
leading `#` of each tag, re-prefix one `#`, and join with spaces. -/
def format_hashtags (s : String) : String :=
  if s = "" then ""
  else joinSep " "
    (((s.split (· = ' ')).filter (· ≠ "")).map
      (fun t => "#" ++ t.dropWhile (· = '#')))

/-- The status text built in main.py `check_and_post_new_items`:
`status_parts = [entry_title, entry_url]`, the hashtag block appended
only when non-empty, joined by `"\n\n"`. -/
def status_of (title url hashtags : String) : String :=
  joinSep "\n\n" (if hashtags = "" then [title, url] else [title, url, hashtags])

/-- Result of one tick of main.py `check_and_post_new_items`:
the statuses the posting collaborator was invoked with, the
processed-entries set afterwards, and the set written to the state file
(`none` when the file was not written). -/
structure TickResult where
  posted : List String
  store : Finset String
  saved : Option (Finset String)
deriving DecidableEq

/-- One tick of main.py `check_and_post_new_items` (latest-only mode):
only `feed.entries[0]` is considered; it is skipped when it has no link
or its link is already in `processed_entries`; otherwise the status is
posted, and only on success the link is added and the file saved. -/
def check_and_post_new_items (post : String → Bool) (hashtags : String)
    (entries : List Entry) (processed : Finset String) : TickResult :=
  match entries with
  | [] => ⟨[], processed, none⟩
  | latest :: _ =>
    let url := latest.link.getD ""
    let title := latest.title.getD "Geen titel"
    if url = "" then ⟨[], processed, none⟩
    else if url ∈ processed then ⟨[], processed, none⟩
    else
      let status := status_of title url (format_hashtags hashtags)
      if post status then
        ⟨[status], insert url processed, some (insert url processed)⟩
      else ⟨[status], processed, none⟩

/-- main.py `save_processed_entries`, as the file content written:
`'\n'.join(processed_entries)` over the set's iteration order, which is
passed here explicitly as the list `iter`; no sorting is applied. -/
def save_processed_entries (iter : List String) : String :=
  joinSep "\n" iter

end Main

/-- Modelled from the spec: no bounded-history store exists under src/
(both bot.py and main.py keep a plain unbounded set), so the
`BoundedRing(capacity=N)` dedup policy of the spec is modelled from its
words: members are kept in insertion order, oldest first. -/
structure BoundedRing where
  capacity : Nat
  members : List String
deriving DecidableEq

namespace BoundedRing

/-- Modelled from the spec: `accept(id)` is a no-op when `id` is already
a member; otherwise it appends `id` and, when over capacity, evicts the
oldest members so the size never exceeds the capacity (for a ring
already full this removes exactly the single oldest member). -/
def accept (r : BoundedRing) (id : String) : BoundedRing :=
  if id ∈ r.members then r
  else
    let m := r.members ++ [id]
    ⟨r.capacity, m.drop (m.length - r.capacity)⟩

/-- A sequence of `accept` operations. -/
def acceptAll (r : BoundedRing) (ids : List String) : BoundedRing :=
  ids.foldl accept r

end BoundedRing

namespace Bot

theorem process_feed_step_store_subset (post : String → Bool) (st : FeedResult)
    (e : Entry) : st.store ⊆ (process_feed_step post st e).store := by
  simp only [process_feed_step]
  split_ifs with h1 h2 h3
  · exact Finset.Subset.refl _
  · exact Finset.Subset.refl _
  · exact Finset.subset_insert _ _
  · exact Finset.Subset.refl _

theorem foldl_step_store_subset (post : String → Bool) (entries : List Entry) :
    ∀ acc : FeedResult,
      acc.store ⊆ (entries.foldl (process_feed_step post) acc).store := by
  induction entries with
  | nil => intro acc; exact Finset.Subset.refl _
  | cons e es ih =>
    intro acc
    exact (process_feed_step_store_subset post acc e).trans (ih _)

theorem foldl_step_count_succeeded (post : String → Bool) (entries : List Entry) :
    ∀ acc : FeedResult,
      (entries.foldl (process_feed_step post) acc).count + acc.succeeded.length =
        (entries.foldl (process_feed_step post) acc).succeeded.length + acc.count := by
  induction entries with
  | nil => intro acc; simp only [List.foldl_nil]; omega
  | cons e es ih =>
    intro acc
    simp only [List.foldl_cons]
    have h := ih (process_feed_step post acc e)
    have hstep :
        (process_feed_step post acc e).count = acc.count + 1 ∧
          (process_feed_step post acc e).succeeded.length =
            acc.succeeded.length + 1 ∨
        (process_feed_step post acc e).count = acc.count ∧
          (process_feed_step post acc e).succeeded.length =
            acc.succeeded.length := by
      simp only [process_feed_step]
      split_ifs <;> simp
    omega

theorem process_feed_count_eq_succeeded (post : String → Bool)
    (entries : List Entry) (processed : Finset String) :
    (process_feed post entries processed).count =
      (process_feed post entries processed).succeeded.length := by
  have h := foldl_step_count_succeeded post entries ⟨0, processed, [], []⟩
  simpa [process_feed] using h

theorem process_feed_step_inv (post : String → Bool) (s0 : Finset String)
    (acc : FeedResult) (e : Entry) (h : StepInv s0 acc) :
    StepInv s0 (process_feed_step post acc e) := by
  obtain ⟨hsub, hnd, hmem⟩ := h
  simp only [process_feed_step]
  split_ifs with h1 h2 h3
  · exact ⟨hsub, hnd, hmem⟩
  · exact ⟨hsub, hnd, hmem⟩
  · refine ⟨hsub.trans (Finset.subset_insert _ _), ?_, ?_⟩
    · refine List.Nodup.append hnd (List.nodup_singleton _) ?_
      intro u hu hu'
      rcases List.mem_singleton.mp hu' with rfl
      exact h2 ((hmem _ hu).1)
    · intro u hu
      rcases List.mem_append.mp hu with hu | hu
      · exact ⟨Finset.mem_insert_of_mem (hmem u hu).1, (hmem u hu).2⟩
      · rcases List.mem_singleton.mp hu with rfl
        exact ⟨Finset.mem_insert_self _ _, fun hc => h2 (hsub hc)⟩
  · exact ⟨hsub, hnd, hmem⟩

theorem foldl_step_inv (post : String → Bool) (s0 : Finset String)
    (entries : List Entry) :
    ∀ acc : FeedResult, StepInv s0 acc →
      StepInv s0 (entries.foldl (process_feed_step post) acc) := by
  induction entries with
  | nil => intro acc h; exact h
  | cons e es ih =>
    intro acc h
    exact ih _ (process_feed_step_inv post s0 acc e h)

theorem process_feed_inv (post : String → Bool) (entries : List Entry)
    (processed : Finset String) :
    StepInv processed (process_feed post entries processed) := by
  refine foldl_step_inv post processed entries _ ?_
  exact ⟨Finset.Subset.refl _, List.nodup_nil, by simp⟩

theorem foldl_step_link_mem (post : String → Bool) (entries : List Entry)
    (hsucc : ∀ e ∈ entries, post (format_status e) = true) :
    ∀ acc : FeedResult, ∀ e ∈ entries, e.link.getD "" ≠ "" →
      e.link.getD "" ∈ (entries.foldl (process_feed_step post) acc).store := by
  induction entries with
  | nil => intro acc e he; exact absurd he (List.not_mem_nil _)
  | cons a es ih =>
    intro acc e he hurl
    simp only [List.foldl_cons]
    rcases List.mem_cons.mp he with rfl | he
    · refine foldl_step_store_subset post es _ ?_
      simp only [process_feed_step]
      split_ifs with h1 h2 h3
      · exact absurd h1 hurl
      · exact h2
      · exact Finset.mem_insert_self _ _
      · exact absurd (hsucc e (List.mem_cons_self _ _)) (by simp [h3])
    · exact ih (fun x hx => hsucc x (List.mem_cons_of_mem _ hx)) _ e he hurl

theorem foldl_step_all_known (post : String → Bool) (entries : List Entry) :
    ∀ acc : FeedResult,
      (∀ e ∈ entries, e.link.getD "" = "" ∨ e.link.getD "" ∈ acc.store) →
      entries.foldl (process_feed_step post) acc = acc := by
  induction entries with
  | nil => intro acc _; rfl
  | cons e es ih =>
    intro acc h
    have hstep : process_feed_step post acc e = acc := by
      rcases h e (List.mem_cons_self _ _) with h1 | h1 <;>
        simp [process_feed_step, h1]
    simp only [List.foldl_cons, hstep]
    exact ih acc (fun x hx => h x (List.mem_cons_of_mem _ hx))

theorem pass_fold_count_succeeded (post : String → Bool)
    (feeds : List (List Entry)) :
    ∀ acc : FeedResult,
      (pass_fold post feeds acc).count + acc.succeeded.length =
        (pass_fold post feeds acc).succeeded.length + acc.count := by
  induction feeds with
  | nil => intro acc; simp only [pass_fold, List.foldl_nil]; omega
  | cons entries feeds ih =>
    intro acc
    simp only [pass_fold, List.foldl_cons]
    have h := ih ⟨acc.count + (process_feed post entries acc.store).count,
      (process_feed post entries acc.store).store,
      acc.invoked ++ (process_feed post entries acc.store).invoked,
      acc.succeeded ++ (process_feed post entries acc.store).succeeded⟩
    simp only [pass_fold] at h
    have hfc := process_feed_count_eq_succeeded post entries acc.store
    simp only [List.length_append] at h
    omega

theorem pass_fold_inv (post : String → Bool) (feeds : List (List Entry)) :
    ∀ acc : FeedResult, PassInv acc → PassInv (pass_fold post feeds acc) := by
  induction feeds with
  | nil => intro acc h; simpa [pass_fold] using h
  | cons entries feeds ih =>
    intro acc h
    obtain ⟨hnd, hmem⟩ := h
    simp only [pass_fold, List.foldl_cons]
    have hfr := process_feed_inv post entries acc.store
    obtain ⟨hsub, hndf, hmemf⟩ := hfr
    refine ih _ ⟨?_, ?_⟩
    · refine List.Nodup.append hnd hndf ?_
      intro u hu hu'
      exact (hmemf u hu').2 (hmem u hu)
    · intro u hu
      rcases List.mem_append.mp hu with hu | hu
      · exact hsub (hmem u hu)
      · exact (hmemf u hu).1

theorem process_new_entries_nodup (post : String → Bool)
    (feeds : List (List Entry)) (processed : Finset String) :
    (process_new_entries post feeds processed).succeeded.Nodup ∧
      ∀ u ∈ (process_new_entries post feeds processed).succeeded,
        u ∈ (process_new_entries post feeds processed).store := by
  have h := pass_fold_inv post feeds ⟨0, processed, [], []⟩
    ⟨List.nodup_nil, by simp⟩
  simpa [process_new_entries, PassInv] using h

theorem process_new_entries_count (post : String → Bool)
    (feeds : List (List Entry)) (processed : Finset String) :
    (process_new_entries post feeds processed).total =
      (process_new_entries post feeds processed).succeeded.length := by
  have h := pass_fold_count_succeeded post feeds ⟨0, processed, [], []⟩
  simpa [process_new_entries] using h

theorem le_foldl_max (l : List Int) : ∀ x : Int, x ≤ l.foldl max x := by
  induction l with
  | nil => intro x; exact le_refl x
  | cons a l ih =>
    intro x
    exact le_trans (le_max_left x a) (ih (max x a))

theorem mem_le_foldl_max (l : List Int) :
    ∀ x : Int, ∀ i ∈ l, i ≤ l.foldl max x := by
  induction l with
  | nil => intro x i hi; exact absurd hi (List.not_mem_nil _)
  | cons a l ih =>
    intro x i hi
    rcases List.mem_cons.mp hi with rfl | hi
    · exact le_trans (le_max_right x i) (le_foldl_max l (max x i))
    · exact ih (max x a) i hi

theorem foldl_max_le (l : List Int) :
    ∀ x y : Int, x ≤ y → (∀ i ∈ l, i ≤ y) → l.foldl max x ≤ y := by
  induction l with
  | nil => intro x y hxy _; exact hxy
  | cons a l ih =>
    intro x y hxy hl
    exact ih (max x a) y (max_le hxy (hl a (List.mem_cons_self _ _)))
      (fun i hi => hl i (List.mem_cons_of_mem _ hi))

theorem tick_fold_mono (ticks : List (Option Int × (Int → List Int))) :
    ∀ x : Int, ∃ y : Int, tick_fold ticks (some x) = some y ∧ x ≤ y := by
  induction ticks with
  | nil => intro x; exact ⟨x, rfl, le_refl x⟩
  | cons t ts ih =>
    intro x
    have hstep : (check_notifications t.1 t.2 (some x)).1 =
        some ((t.2 x).foldl max x) := rfl
    obtain ⟨y, hy, hxy⟩ := ih ((t.2 x).foldl max x)
    refine ⟨y, ?_, le_trans (le_foldl_max (t.2 x) x) hxy⟩
    simp only [tick_fold, List.foldl_cons, hstep]
    exact hy

end Bot

namespace BoundedRing

theorem accept_capacity (r : BoundedRing) (id : String) :
    (r.accept id).capacity = r.capacity := by
  simp only [accept]
  split_ifs <;> rfl

theorem accept_length_le (r : BoundedRing) (id : String)
    (h : r.members.length ≤ r.capacity) :
    (r.accept id).members.length ≤ r.capacity := by
  simp only [accept]
  split_ifs with h1
  · exact h
  · simp only [List.length_drop, List.length_append, List.length_singleton]
    omega

theorem acceptAll_length_le (ids : List String) :
    ∀ r : BoundedRing, r.members.length ≤ r.capacity →
      (r.acceptAll ids).members.length ≤ r.capacity := by
  induction ids with
  | nil => intro r h; exact h
  | cons id ids ih =>
    intro r h
    have hcap := accept_capacity r id
    have := ih (r.accept id) (by rw [hcap]; exact accept_length_le r id h)
    rw [hcap] at this
    simpa [acceptAll] using this

end BoundedRing

/-- C1: in the body of the publish loop of bot.py process_feed, for a
candidate item whose id (link) is non-empty and not yet in the store:
if posting fails the store is unchanged, the id stays absent and the
count is unchanged; if posting succeeds the id is in the store and the
count is incremented by one. -/
theorem c1_at_most_once (post : String → Bool) (st : Bot.FeedResult) (e : Entry)
    (hurl : e.link.getD "" ≠ "") (hnew : e.link.getD "" ∉ st.store) :
    (post (Bot.format_status e) = false →
      (Bot.process_feed_step post st e).store = st.store ∧
      e.link.getD "" ∉ (Bot.process_feed_step post st e).store ∧
      (Bot.process_feed_step post st e).count = st.count) ∧
    (post (Bot.format_status e) = true →
      e.link.getD "" ∈ (Bot.process_feed_step post st e).store ∧
      (Bot.process_feed_step post st e).count = st.count + 1) := by
  constructor
  · intro hpost
    simp [Bot.process_feed_step, hurl, hnew, hpost]
  · intro hpost
    simp [Bot.process_feed_step, hurl, hnew, hpost]

/-- Witness for C1 at a concrete new item with a succeeding poster. -/
theorem c1_at_most_once_witness :
    ((some "a" : Option String).getD "" ≠ "") ∧
    ((some "a" : Option String).getD "" ∉ (⟨0, ∅, [], []⟩ : Bot.FeedResult).store) ∧
    ((some "a" : Option String).getD "" ∈
        (Bot.process_feed_step (fun _ => true) ⟨0, ∅, [], []⟩
          ⟨some "T", some "a"⟩).store ∧
      (Bot.process_feed_step (fun _ => true) ⟨0, ∅, [], []⟩
          ⟨some "T", some "a"⟩).count =
        (⟨0, ∅, [], []⟩ : Bot.FeedResult).count + 1) :=
  ⟨by decide, by decide,
    (c1_at_most_once (fun _ => true) ⟨0, ∅, [], []⟩ ⟨some "T", some "a"⟩
        (by decide) (by decide)).2 rfl⟩

/-- C2: for a BoundedRing already holding capacity-many members (capacity
positive), accepting a new id evicts exactly the single oldest member,
the size stays at capacity, and the size never exceeds the capacity
after any sequence of accepts. -/
theorem c2_bounded_ring (r : BoundedRing) (id : String) (ids : List String)
    (hpos : 0 < r.capacity) (hfull : r.members.length = r.capacity)
    (hnew : id ∉ r.members) :
    (r.accept id).members = r.members.tail ++ [id] ∧
    (r.accept id).members.length = r.capacity ∧
    ∀ s : BoundedRing, s.members.length ≤ s.capacity →
      (s.acceptAll ids).members.length ≤ s.capacity := by
  have hone : 1 ≤ r.members.length := by omega
  refine ⟨?_, ?_, fun s hs => BoundedRing.acceptAll_length_le ids s hs⟩
  · simp only [BoundedRing.accept, if_neg hnew]
    have hlen : (r.members ++ [id]).length - r.capacity = 1 := by
      simp only [List.length_append, List.length_singleton]
      omega
    rw [hlen, List.drop_append_of_le_length hone, List.drop_one]
  · simp only [BoundedRing.accept, if_neg hnew]
    simp only [List.length_drop, List.length_append, List.length_singleton]
    omega

/-- Witness for C2 at a full ring of capacity 2. -/
theorem c2_bounded_ring_witness :
    (0 < (⟨2, ["a", "b"]⟩ : BoundedRing).capacity) ∧
    ((⟨2, ["a", "b"]⟩ : BoundedRing).members.length =
      (⟨2, ["a", "b"]⟩ : BoundedRing).capacity) ∧
    ("c" ∉ (⟨2, ["a", "b"]⟩ : BoundedRing).members) ∧
    ((⟨2, ["a", "b"]⟩ : BoundedRing).accept "c").members = ["b", "c"] ∧
    (BoundedRing.acceptAll ⟨1, []⟩ ["x", "y", "z"]).members.length ≤ 1 :=
  ⟨by decide, by decide, by decide,
    (c2_bounded_ring ⟨2, ["a", "b"]⟩ "c" ["x", "y", "z"]
        (by decide) (by decide) (by decide)).1,
    (c2_bounded_ring ⟨2, ["a", "b"]⟩ "c" ["x", "y", "z"]
        (by decide) (by decide) (by decide)).2.2 ⟨1, []⟩ (by decide)⟩

/-- C3: in latest-only mode (main.py check_and_post_new_items) only the
entry at index 0 is considered (the result does not depend on the tail
of the feed), and when its link is already in the store the tick posts
nothing, changes nothing and saves nothing, even if unseen entries sit
further down the feed. -/
theorem c3_latest_only (post : String → Bool) (hashtags : String) (e : Entry)
    (rest₁ rest₂ : List Entry) (processed : Finset String)
    (hknown : e.link.getD "" ∈ processed) :
    Main.check_and_post_new_items post hashtags (e :: rest₁) processed =
      Main.check_and_post_new_items post hashtags (e :: rest₂) processed ∧
    Main.check_and_post_new_items post hashtags (e :: rest₁) processed =
      ⟨[], processed, none⟩ := by
  constructor
  · rfl
  · simp only [Main.check_and_post_new_items]
    by_cases h : e.link.getD "" = ""
    · simp [h]
    · simp [h, hknown]

/-- Witness for C3: newest entry "1" already known, unseen "0" further
down, zero posts. -/
theorem c3_latest_only_witness :
    ((some "1" : Option String).getD "" ∈ ({"1"} : Finset String)) ∧
    Main.check_and_post_new_items (fun _ => true) ""
        [⟨some "t1", some "1"⟩, ⟨some "t0", some "0"⟩] {"1"} =
      ⟨[], {"1"}, none⟩ :=
  ⟨by decide,
    (c3_latest_only (fun _ => true) "" ⟨some "t1", some "1"⟩
        [⟨some "t0", some "0"⟩] [] {"1"} (by decide)).2⟩

/-- C4: over one pass of bot.py process_new_entries the state file is
written exactly once when at least one item across all feeds was
accepted (saved holds the single write) and not at all when zero items
were accepted; the per-feed loop itself never writes. -/
theorem c4_single_save (post : String → Bool) (feeds : List (List Entry))
    (processed : Finset String) :
    ((Bot.process_new_entries post feeds processed).succeeded = [] →
      (Bot.process_new_entries post feeds processed).saved = none) ∧
    ((Bot.process_new_entries post feeds processed).succeeded ≠ [] →
      (Bot.process_new_entries post feeds processed).saved =
        some (Bot.save_processed_entries
          (Bot.process_new_entries post feeds processed).store)) := by
  have h := Bot.pass_fold_count_succeeded post feeds ⟨0, processed, [], []⟩
  simp only [List.length_nil, Nat.add_zero] at h
  constructor
  · intro hs
    simp only [Bot.process_new_entries] at hs ⊢
    rw [hs, List.length_nil] at h
    simp [h]
  · intro hs
    simp only [Bot.process_new_entries] at hs ⊢
    have hlen : (Bot.pass_fold post feeds ⟨0, processed, [], []⟩).succeeded.length ≠ 0 :=
      fun h0 => hs (List.length_eq_zero.mp h0)
    have hpos : 0 < (Bot.pass_fold post feeds ⟨0, processed, [], []⟩).count := by
      omega
    simp [hpos]

/-- Witness for C4: one accepted item, state written once. -/
theorem c4_single_save_witness :
    ((Bot.process_new_entries (fun _ => true)
        [[⟨some "A", some "a"⟩]] ∅).succeeded ≠ []) ∧
    (Bot.process_new_entries (fun _ => true) [[⟨some "A", some "a"⟩]] ∅).saved =
      some (Bot.save_processed_entries
        (Bot.process_new_entries (fun _ => true) [[⟨some "A", some "a"⟩]] ∅).store) :=
  ⟨by decide,
    (c4_single_save (fun _ => true) [[⟨some "A", some "a"⟩]] ∅).2 (by decide)⟩

/-- C5 counterexample: on iteration order ["b", "a"] main.py's save
writes the lines unsorted ("b" before "a"), while bot.py's save of the
same member set is sorted, so the two implementations do not both write
in lexicographically sorted order. -/
theorem c5_counterexample :
    Main.save_processed_entries ["b", "a"] = "b\na" ∧
    ¬ List.Sorted (· ≤ ·) ["b", "a"] ∧
    Bot.save_processed_entries {"a", "b"} = "a\nb" := by
  refine ⟨rfl, ?_, ?_⟩
  · intro h
    have hba := List.rel_of_sorted_cons h "a" (List.mem_singleton_self _)
    rw [String.le_iff_toList_le] at hba
    revert hba
    decide
  · have hs : Bot.saveLines {"a", "b"} = ["a", "b"] := by
      unfold Bot.saveLines
      rw [show ({"a", "b"} : Finset String) = insert "a" {"b"} from rfl]
      rw [Finset.sort_insert]
      · rw [Finset.sort_singleton]
      · intro b hb
        rcases Finset.mem_singleton.mp hb with rfl
        rw [String.le_iff_toList_le]
        decide
      · decide
    simp only [Bot.save_processed_entries, hs]
    rfl

/-- C5 (amended): bot.py's save writes one identifier per line in
lexicographically sorted order and writes exactly the members; main.py's
save writes one identifier per line in the set's iteration order, with
no sorting applied. -/
theorem c5_save_order (s : Finset String) (iter : List String) :
    List.Sorted (· ≤ ·) (Bot.saveLines s) ∧
    (∀ a : String, a ∈ Bot.saveLines s ↔ a ∈ s) ∧
    Bot.save_processed_entries s = joinSep "\n" (Bot.saveLines s) ∧
    Main.save_processed_entries iter = joinSep "\n" iter :=
  ⟨Finset.sort_sorted _ _, fun _ => Finset.mem_sort _, rfl, rfl⟩

/-- Witness for C5 (amended) at the empty store. -/
theorem c5_save_order_witness :
    List.Sorted (· ≤ ·) (Bot.saveLines ∅) ∧
    Main.save_processed_entries ["b", "a"] = joinSep "\n" ["b", "a"] :=
  ⟨(c5_save_order ∅ ["b", "a"]).1, (c5_save_order ∅ ["b", "a"]).2.2.2⟩

/-- C6: once the watermark is seeded at x, one tick of bot.py
check_notifications sets it to the maximum of x and the fetched
notification ids (it is an upper bound of x and of every fetched id, and
the least such bound), a tick with zero notifications leaves it
unchanged, and across any sequence of ticks it never decreases. -/
theorem c6_watermark_monotone (fetchLatest : Option Int)
    (fetchSince : Int → List Int) (x : Int) :
    (Bot.check_notifications fetchLatest fetchSince (some x)).1 =
      some ((fetchSince x).foldl max x) ∧
    x ≤ (fetchSince x).foldl max x ∧
    (∀ i ∈ fetchSince x, i ≤ (fetchSince x).foldl max x) ∧
    (∀ y : Int, x ≤ y → (∀ i ∈ fetchSince x, i ≤ y) →
      (fetchSince x).foldl max x ≤ y) ∧
    (fetchSince x = [] →
      (Bot.check_notifications fetchLatest fetchSince (some x)).1 = some x) ∧
    ∀ ticks : List (Option Int × (Int → List Int)),
      ∃ y : Int, Bot.tick_fold ticks (some x) = some y ∧ x ≤ y := by
  refine ⟨rfl, Bot.le_foldl_max _ x, Bot.mem_le_foldl_max _ x,
    Bot.foldl_max_le _ x, ?_, fun ticks => Bot.tick_fold_mono ticks x⟩
  intro h
  simp [Bot.check_notifications, h]

/-- Witness for C6: a tick with zero notifications leaves the watermark
at 5. -/
theorem c6_watermark_monotone_witness :
    ((fun _ : Int => ([] : List Int)) 5 = []) ∧
    (Bot.check_notifications none (fun _ => []) (some 5)).1 = some 5 :=
  ⟨rfl, (c6_watermark_monotone none (fun _ => []) 5).2.2.2.2.1 rfl⟩

/-- C7: on the first tick (watermark None) bot.py check_notifications
seeds the watermark from the single most recent mention handed back by
the limit-1 fetch, or from 0 when there is none, and sends no reply. -/
theorem c7_seed_first_tick (fetchLatest : Option Int)
    (fetchSince : Int → List Int) :
    Bot.check_notifications fetchLatest fetchSince none =
      (some (fetchLatest.getD 0), []) := by
  cases fetchLatest <;> rfl

/-- C8: with an unchanged feed and all posts of the first pass
succeeding, a second pass of bot.py process_feed over the store left by
the first pass posts nothing: zero count, unchanged store, and the
posting collaborator is never invoked. -/
theorem c8_second_pass_zero (post : String → Bool) (entries : List Entry)
    (processed : Finset String)
    (hsucc : ∀ e ∈ entries, post (Bot.format_status e) = true) :
    Bot.process_feed post entries
        (Bot.process_feed post entries processed).store =
      ⟨0, (Bot.process_feed post entries processed).store, [], []⟩ := by
  apply Bot.foldl_step_all_known
  intro e he
  by_cases h : e.link.getD "" = ""
  · exact Or.inl h
  · exact Or.inr
      (Bot.foldl_step_link_mem post entries hsucc ⟨0, processed, [], []⟩ e he h)

/-- Witness for C8 at a one-entry feed with an always-succeeding
poster. -/
theorem c8_second_pass_zero_witness :
    (∀ e ∈ [(⟨some "A", some "a"⟩ : Entry)],
      (fun _ : String => true) (Bot.format_status e) = true) ∧
    Bot.process_feed (fun _ => true) [⟨some "A", some "a"⟩]
        (Bot.process_feed (fun _ => true) [⟨some "A", some "a"⟩] ∅).store =
      ⟨0, (Bot.process_feed (fun _ => true) [⟨some "A", some "a"⟩] ∅).store,
        [], []⟩ :=
  ⟨by decide,
    c8_second_pass_zero (fun _ => true) [⟨some "A", some "a"⟩] ∅ (by decide)⟩

/-- C9: the optional hashtag block of the status built by main.py
collapses to the empty string when unconfigured, and the final status
then carries no placeholder text and no separator whitespace left by the
empty block: it is exactly title, blank line, link. -/
theorem c9_empty_hashtags_collapse :
    Main.format_hashtags "" = "" ∧
    ∀ title url : String,
      Main.status_of title url (Main.format_hashtags "") =
        title ++ "\n\n" ++ url :=
  ⟨rfl, fun _ _ => rfl⟩

/-- C10 counterexample: with a failing poster and a feed containing the
same link twice, one pass invokes the posting collaborator twice for
that link, so the posting collaborator is not invoked at most once per
link per pass. -/
theorem c10_counterexample :
    (Bot.process_new_entries (fun _ => false)
        [[⟨some "T", some "a"⟩, ⟨some "T", some "a"⟩]] ∅).invoked.count "a" = 2 := by
  decide

/-- C10 (amended): the processed-entries set is shared and mutated in
place across the feeds of one pass, so every link is successfully posted
at most once per pass (the success trace has no duplicates), and every
successfully posted link is in the shared store afterwards; a link whose
post failed is not recorded and may be attempted again within the same
pass. -/
theorem c10_successful_post_once (post : String → Bool)
    (feeds : List (List Entry)) (processed : Finset String) :
    (Bot.process_new_entries post feeds processed).succeeded.Nodup ∧
    ∀ u ∈ (Bot.process_new_entries post feeds processed).succeeded,
      u ∈ (Bot.process_new_entries post feeds processed).store :=
  Bot.process_new_entries_nodup post feeds processed

/-- Witness for C10 (amended): link "a" posted once ends in the store. -/
theorem c10_successful_post_once_witness :
    ("a" ∈ (Bot.process_new_entries (fun _ => true)
        [[⟨some "T", some "a"⟩]] ∅).succeeded) ∧
    "a" ∈ (Bot.process_new_entries (fun _ => true)
        [[⟨some "T", some "a"⟩]] ∅).store :=
  ⟨by decide,
    (c10_successful_post_once (fun _ => true) [[⟨some "T", some "a"⟩]] ∅).2
      "a" (by decide)⟩
